import Mathlib

/-!
Verification of the proportional prize-distribution engine of
`src/prize_calculator.py` (functions `calculate_distribution`,
`calculate_integer_distribution`, and the special-prize winner selection of
the state-update recomputation path).

Conventions of the shallow embedding:
* Python floats are modelled as exact rationals (`ℚ`).  All the inputs used
  in concrete counterexamples below are exactly representable in binary
  floating point, so the modelled behaviour coincides with the Python
  behaviour on those inputs.
* Python's built-in `round` (round-half-to-even on the exact value) is
  `pyRound`; Python's `int()` on a float (truncation toward zero) is
  `pyTrunc`.
* Python `sorted` is a stable sort; `List.insertionSort` with a reflexive
  total preorder is stable in the same sense, so it is used for every
  `sorted(...)` call of the source.
* The participant `damage` field of the source is either a number or the
  literal string `'#'` ("excluded" sentinel); it is modelled as the sum
  type `Damage`.
* The source wraps `calculate_distribution` in `try/except` returning `[]`
  on any exception.  The only exception reachable with well-typed inputs is
  the `ZeroDivisionError` raised in the special-prize real-valued branch
  when the selected winners' total damage is zero; the embedding makes this
  `[]` outcome an explicit branch.
-/

/-- Python `round` on an exact value: round half to even (banker's
rounding), as the CPython built-in behaves on floats. -/
def pyRound (q : ℚ) : ℤ :=
  let f : ℤ := ⌊q⌋
  if 2 * q < 2 * (f : ℚ) + 1 then f
  else if 2 * (f : ℚ) + 1 < 2 * q then f + 1
  else if f % 2 = 0 then f else f + 1

/-- Python `int()` applied to a float: truncation toward zero (for a
negative argument this is `-⌊-q⌋`, i.e. the ceiling). -/
def pyTrunc (q : ℚ) : ℤ :=
  if q < 0 then -⌊-q⌋ else ⌊q⌋

/-- The `damage` field of a participant: either a numeric weight or the
`'#'` "excluded" sentinel string of the source. -/
inductive Damage where
  | excluded : Damage
  | val : ℚ → Damage
deriving DecidableEq

/-- Mirrors the `Participant` dataclass of the source (id, name, damage,
enabled). -/
structure Participant where
  id : ℕ
  name : String
  damage : Damage
  enabled : Bool
deriving DecidableEq

/-- Mirrors the `Prize` dataclass of the source (id, name, quantity,
is_special, top_winners). -/
structure Prize where
  id : ℕ
  name : String
  quantity : ℚ
  is_special : Bool
  top_winners : ℕ
deriving DecidableEq

/-- Boolean test for the `'#'` sentinel, mirroring
`isinstance(p.damage, str) and p.damage.strip() == '#'`. -/
def Damage.isExcluded : Damage → Bool
  | .excluded => true
  | .val _ => false

/-- Numeric value of a participant's damage.  Only ever applied to
participants that passed the sentinel filter, whose damage is `Damage.val`. -/
def dmg (p : Participant) : ℚ :=
  match p.damage with
  | .val q => q
  | .excluded => 0

/-- The eligibility filter of the source: enabled participants whose damage
is not the `'#'` sentinel. -/
def activeParticipants (ps : List Participant) : List Participant :=
  ps.filter (fun p => p.enabled && !(p.damage.isExcluded))

/-- Ordering by ascending participant id, used by every
`sorted(..., key=lambda p: p.id)` of the source. -/
def idLe (a b : Participant) : Prop := a.id ≤ b.id

instance : DecidableRel idLe := fun a b => inferInstanceAs (Decidable (a.id ≤ b.id))

instance : IsTotal Participant idLe := ⟨fun a b => Nat.le_total a.id b.id⟩

instance : IsTrans Participant idLe := ⟨fun _ _ _ => Nat.le_trans⟩

/-- Ordering by descending damage, used by
`sorted(..., key=lambda p: p.damage, reverse=True)` of the source. -/
def dmgGe (a b : Participant) : Prop := dmg b ≤ dmg a

instance : DecidableRel dmgGe := fun a b => inferInstanceAs (Decidable (dmg b ≤ dmg a))

instance : IsTotal Participant dmgGe := ⟨fun a b => le_total (dmg b) (dmg a)⟩

instance : IsTrans Participant dmgGe :=
  ⟨fun _ _ _ h1 h2 => le_trans h2 h1⟩

/-- Ordering of result triples by ascending first component (participant
id), used by `result.sort(key=lambda x: x[0])`. -/
def fstLe (a b : ℕ × String × ℚ) : Prop := a.1 ≤ b.1

instance : DecidableRel fstLe := fun a b => inferInstanceAs (Decidable (a.1 ≤ b.1))

instance : IsTotal (ℕ × String × ℚ) fstLe := ⟨fun a b => Nat.le_total a.1 b.1⟩

instance : IsTrans (ℕ × String × ℚ) fstLe := ⟨fun _ _ _ => Nat.le_trans⟩

/-- Stable sort by ascending id (`sorted(participants, key=lambda p: p.id)`). -/
def sortById (l : List Participant) : List Participant := List.insertionSort idLe l

/-- Stable sort by descending damage
(`sorted(participants, key=lambda p: p.damage, reverse=True)`). -/
def sortByDamageDesc (l : List Participant) : List Participant :=
  List.insertionSort dmgGe l

/-- Stable sort of result triples by ascending id
(`result.sort(key=lambda x: x[0])`). -/
def sortByFst (l : List (ℕ × String × ℚ)) : List (ℕ × String × ℚ) :=
  List.insertionSort fstLe l

/-- One entry of the internal `shares` working list of
`calculate_integer_distribution`: the source keeps
`[participant, current_share, exact_share]`, where `current_share` holds an
integer after the initial rounding pass. -/
structure Share where
  p : Participant
  cur : ℤ
  exact : ℚ
deriving DecidableEq

/-- The forward scan of a correction iteration, transcribing the inner
`for j, share in enumerate(shares)` loop with `min_loss = inf, min_idx = -1`:
the accumulator `acc` is `none` for `(inf, -1)` and `some (m, i)` for the
current best loss and index; an entry is taken when it satisfies `cond` and
its loss is strictly below the current best. -/
def scanMin (cond : Share → Bool) (loss : Share → ℚ) :
    ℕ → List Share → Option (ℚ × ℕ) → Option (ℚ × ℕ)
  | _, [], acc => acc
  | j, s :: rest, acc =>
      let takeIt :=
        cond s && (match acc with
                   | none => true
                   | some (m, _) => decide (loss s < m))
      scanMin cond loss (j + 1) rest (if takeIt then some (loss s, j) else acc)

/-- Candidate condition of the decrement scan: `if share[1] > 0`. -/
def decCond (s : Share) : Bool := decide (0 < s.cur)

/-- Deviation tested by the decrement scan: `abs((share[1] - 1) - share[2])`. -/
def decLoss (s : Share) : ℚ := |((s.cur : ℚ) - 1) - s.exact|

/-- Candidate condition of the increment scan: every entry (no guard). -/
def incCond (_ : Share) : Bool := true

/-- Deviation tested by the increment scan: `abs((share[1] + 1) - share[2])`. -/
def incLoss (s : Share) : ℚ := |((s.cur : ℚ) + 1) - s.exact|

/-- In-place update `shares[j][1] = f(shares[j][1])` of the working list. -/
def modifyCur (f : ℤ → ℤ) : List Share → ℕ → List Share
  | [], _ => []
  | s :: rest, 0 => { s with cur := f s.cur } :: rest
  | s :: rest, j + 1 => s :: modifyCur f rest j

/-- One iteration of the over-assignment correction: scan for the positive
share whose decrement stays closest to the exact share, and decrement it
(`if min_idx >= 0: shares[min_idx][1] -= 1`). -/
def decOnce (shares : List Share) : List Share :=
  match scanMin decCond decLoss 0 shares none with
  | some (_, j) => modifyCur (fun c => c - 1) shares j
  | none => shares

/-- One iteration of the under-assignment correction: scan for the share
whose increment stays closest to the exact share, and increment it. -/
def incOnce (shares : List Share) : List Share :=
  match scanMin incCond incLoss 0 shares none with
  | some (_, j) => modifyCur (fun c => c + 1) shares j
  | none => shares

/-- The `for i in range(abs(diff))` loop of the over-assignment branch. -/
def decIter : ℕ → List Share → List Share
  | 0, shares => shares
  | k + 1, shares => decIter k (decOnce shares)

/-- The `for i in range(abs(diff))` loop of the under-assignment branch. -/
def incIter : ℕ → List Share → List Share
  | 0, shares => shares
  | k + 1, shares => incIter k (incOnce shares)

/-- Construction of the `shares` working list: participants sorted by
descending damage, each with exact share `quantity * (damage / total)` and
initial integer share `round(exact)` (the source builds the list with the
exact share and then overwrites slot 1 with `round(share[1])`; the two
passes are fused here). -/
def initialShares (participants : List Participant) (total_damage quantity : ℚ) :
    List Share :=
  (sortByDamageDesc participants).map (fun p =>
    let e := quantity * (dmg p / total_damage)
    { p := p, cur := pyRound e, exact := e })

/-- Sum of the current integer shares (`total_assigned`). -/
def sumCur (shares : List Share) : ℤ := (shares.map (fun s => s.cur)).sum

/-- The `shares` working list after the conservation correction: the
`diff = total_assigned - total_to_distribute` branches of the source, with
`abs(diff)` decrement iterations when over-assigned and `abs(diff)`
increment iterations when under-assigned. -/
def correctedShares (participants : List Participant)
    (total_damage quantity : ℚ) : List Share :=
  let total_to_distribute : ℤ := pyTrunc quantity
  let shares0 := initialShares participants total_damage quantity
  let diff : ℤ := sumCur shares0 - total_to_distribute
  if 0 < diff then decIter diff.natAbs shares0
  else if diff < 0 then incIter diff.natAbs shares0
  else shares0

/-- Embedding of `calculate_integer_distribution(participants, total_damage,
quantity)` of the source (lines 4303-4368). -/
def calculate_integer_distribution (participants : List Participant)
    (total_damage quantity : ℚ) : List (ℕ × String × ℚ) :=
  if participants = [] ∨ total_damage = 0 then []
  else
    sortByFst ((correctedShares participants total_damage quantity).map
      (fun s => (s.p.id, s.p.name, (s.cur : ℚ))))

/-- Embedding of `calculate_distribution(prize)` of the source (lines
3566-3619); the participant roster and the `integer_only` UI flag are
explicit arguments.  The `winner_total = 0` branch of the special-prize
real-valued case models the caught `ZeroDivisionError` (the surrounding
`except` returns `[]`). -/
def calculate_distribution (prize : Prize) (participants : List Participant)
    (integer_only : Bool) : List (ℕ × String × ℚ) :=
  let active := activeParticipants participants
  if active = [] then []
  else
    let total_damage := (active.map dmg).sum
    if total_damage = 0 then []
    else if prize.is_special then
      let top := (sortById active).take prize.top_winners
      let winner_total := (top.map dmg).sum
      if integer_only then
        calculate_integer_distribution top winner_total prize.quantity
      else if winner_total = 0 then []
      else top.map (fun p => (p.id, p.name, prize.quantity * (dmg p / winner_total)))
    else
      if integer_only then
        calculate_integer_distribution active total_damage prize.quantity
      else
        (sortById active).map (fun p =>
          (p.id, p.name, prize.quantity * (dmg p / total_damage)))

/-- Special-prize winner selection of the interactive distribution path
(source lines 3585-3588): the first `top_winners` active participants in
ascending-id order. -/
def selectWinnersById (active : List Participant) (n : ℕ) : List Participant :=
  (sortById active).take n

/-- Special-prize winner selection of the state-update recomputation path
(source lines 5020-5022): the first `top_winners` active participants in
descending-damage order. -/
def selectWinnersByDamage (active : List Participant) (n : ℕ) : List Participant :=
  (sortByDamageDesc active).take n

/-- The eligible set after the special-prize restriction, in the iteration
order the source uses: for a special prize the first `top_winners` active
participants in ascending-id order (lines 3585-3588), otherwise the active
participants in ascending-id order (line 3605). -/
def restrictedOrdered (prize : Prize) (ps : List Participant) : List Participant :=
  if prize.is_special then (sortById (activeParticipants ps)).take prize.top_winners
  else sortById (activeParticipants ps)

/-- Total damage of the (possibly restricted) eligible set: `winner_total_damage`
for a special prize, `total_damage` for a normal one. -/
def restrictedTotal (prize : Prize) (ps : List Participant) : ℚ :=
  ((restrictedOrdered prize ps).map dmg).sum

/-- Characterization of the correction scan starting from a current best
`(m0, i0)`: either no entry strictly improves on `m0` and the accumulator
survives, or the scan returns the first entry achieving the minimal loss,
which is strictly below `m0`. -/
theorem scanMin_some_spec (cond : Share → Bool) (loss : Share → ℚ)
    (l : List Share) : ∀ (j0 : ℕ) (m0 : ℚ) (i0 : ℕ),
    (scanMin cond loss j0 l (some (m0, i0)) = some (m0, i0) ∧
      ∀ s ∈ l, cond s = true → m0 ≤ loss s) ∨
    (∃ p : ℕ, ∃ hp : p < l.length,
      scanMin cond loss j0 l (some (m0, i0)) = some (loss (l.get ⟨p, hp⟩), j0 + p) ∧
      cond (l.get ⟨p, hp⟩) = true ∧
      loss (l.get ⟨p, hp⟩) < m0 ∧
      (∀ (k : ℕ) (hk : k < l.length), cond (l.get ⟨k, hk⟩) = true →
        loss (l.get ⟨p, hp⟩) ≤ loss (l.get ⟨k, hk⟩)) ∧
      (∀ (k : ℕ) (hk : k < l.length), k < p → cond (l.get ⟨k, hk⟩) = true →
        loss (l.get ⟨p, hp⟩) < loss (l.get ⟨k, hk⟩))) := by
  induction l with
  | nil =>
      intro j0 m0 i0
      exact Or.inl ⟨rfl, by simp⟩
  | cons s rest ih =>
      intro j0 m0 i0
      have hred : scanMin cond loss j0 (s :: rest) (some (m0, i0)) =
          scanMin cond loss (j0 + 1) rest
            (if cond s && decide (loss s < m0) then some (loss s, j0)
             else some (m0, i0)) := rfl
      cases htake : cond s && decide (loss s < m0) with
      | true =>
          have hcs : cond s = true := by
            have := htake
            simp only [Bool.and_eq_true, decide_eq_true_eq] at this
            exact this.1
          have hls : loss s < m0 := by
            have := htake
            simp only [Bool.and_eq_true, decide_eq_true_eq] at this
            exact this.2
          have hred2 : scanMin cond loss j0 (s :: rest) (some (m0, i0)) =
              scanMin cond loss (j0 + 1) rest (some (loss s, j0)) := by
            rw [hred, htake]; rfl
          rcases ih (j0 + 1) (loss s) j0 with ⟨heq, hall⟩ |
            ⟨p, hp, heq, hc, hlt, hmin, hfirst⟩
          · refine Or.inr ⟨0, by simp, ?_, ?_, ?_, ?_, ?_⟩
            · rw [hred2, heq]; simp
            · simpa using hcs
            · simpa using hls
            · intro k hk hck
              match k, hk, hck with
              | 0, hk, hck => exact le_rfl
              | k + 1, hk, hck =>
                  simp only [List.get_cons_succ, List.get_cons_zero] at hck ⊢
                  exact hall _ (List.get_mem rest _ _) hck
            · intro k hk hk0
              exact absurd hk0 (Nat.not_lt_zero k)
          · refine Or.inr ⟨p + 1, Nat.succ_lt_succ hp, ?_, ?_, ?_, ?_, ?_⟩
            · rw [hred2, heq, List.get_cons_succ]
              congr 2
              omega
            · simpa [List.get_cons_succ] using hc
            · simp only [List.get_cons_succ]
              exact lt_trans hlt hls
            · intro k hk hck
              match k, hk, hck with
              | 0, hk, hck =>
                  simp only [List.get_cons_succ, List.get_cons_zero]
                  exact le_of_lt hlt
              | k + 1, hk, hck =>
                  simp only [List.get_cons_succ] at hck ⊢
                  exact hmin k (Nat.lt_of_succ_lt_succ hk) hck
            · intro k hk hkp hck
              match k, hk, hck with
              | 0, hk, hck =>
                  simp only [List.get_cons_succ, List.get_cons_zero]
                  exact hlt
              | k + 1, hk, hck =>
                  simp only [List.get_cons_succ] at hck ⊢
                  exact hfirst k (Nat.lt_of_succ_lt_succ hk)
                    (Nat.lt_of_succ_lt_succ hkp) hck
      | false =>
          have hns : ¬(cond s = true ∧ loss s < m0) := by
            intro ⟨h1, h2⟩
            rw [h1] at htake
            simp only [Bool.true_and, decide_eq_true_eq] at htake
            exact absurd h2 (by simpa using htake)
          have hred2 : scanMin cond loss j0 (s :: rest) (some (m0, i0)) =
              scanMin cond loss (j0 + 1) rest (some (m0, i0)) := by
            rw [hred, htake]; rfl
          rcases ih (j0 + 1) m0 i0 with ⟨heq, hall⟩ |
            ⟨p, hp, heq, hc, hlt, hmin, hfirst⟩
          · refine Or.inl ⟨by rw [hred2, heq], ?_⟩
            intro t ht hct
            rcases List.mem_cons.mp ht with rfl | htr
            · by_contra hcon
              exact hns ⟨hct, lt_of_not_le hcon⟩
            · exact hall t htr hct
          · refine Or.inr ⟨p + 1, Nat.succ_lt_succ hp, ?_, ?_, ?_, ?_, ?_⟩
            · rw [hred2, heq, List.get_cons_succ]
              congr 2
              omega
            · simpa [List.get_cons_succ] using hc
            · simpa [List.get_cons_succ] using hlt
            · intro k hk hck
              match k, hk, hck with
              | 0, hk, hck =>
                  simp only [List.get_cons_succ, List.get_cons_zero] at hck ⊢
                  have hm0 : m0 ≤ loss s := by
                    by_contra hcon
                    exact hns ⟨hck, lt_of_not_le hcon⟩
                  exact le_of_lt (lt_of_lt_of_le hlt hm0)
              | k + 1, hk, hck =>
                  simp only [List.get_cons_succ] at hck ⊢
                  exact hmin k (Nat.lt_of_succ_lt_succ hk) hck
            · intro k hk hkp hck
              match k, hk, hck with
              | 0, hk, hck =>
                  simp only [List.get_cons_succ, List.get_cons_zero] at hck ⊢
                  have hm0 : m0 ≤ loss s := by
                    by_contra hcon
                    exact hns ⟨hck, lt_of_not_le hcon⟩
                  exact lt_of_lt_of_le hlt hm0
              | k + 1, hk, hck =>
                  simp only [List.get_cons_succ] at hck ⊢
                  exact hfirst k (Nat.lt_of_succ_lt_succ hk)
                    (Nat.lt_of_succ_lt_succ hkp) hck

/-- Characterization of a full correction scan (accumulator initialised to
`min_loss = inf, min_idx = -1`): either no entry satisfies the candidate
condition and the scan returns nothing, or it returns the first candidate
entry achieving the minimal loss. -/
theorem scanMin_none_spec (cond : Share → Bool) (loss : Share → ℚ)
    (l : List Share) : ∀ j0 : ℕ,
    (scanMin cond loss j0 l none = none ∧ ∀ s ∈ l, cond s = false) ∨
    (∃ p : ℕ, ∃ hp : p < l.length,
      scanMin cond loss j0 l none = some (loss (l.get ⟨p, hp⟩), j0 + p) ∧
      cond (l.get ⟨p, hp⟩) = true ∧
      (∀ (k : ℕ) (hk : k < l.length), cond (l.get ⟨k, hk⟩) = true →
        loss (l.get ⟨p, hp⟩) ≤ loss (l.get ⟨k, hk⟩)) ∧
      (∀ (k : ℕ) (hk : k < l.length), k < p → cond (l.get ⟨k, hk⟩) = true →
        loss (l.get ⟨p, hp⟩) < loss (l.get ⟨k, hk⟩))) := by
  induction l with
  | nil =>
      intro j0
      exact Or.inl ⟨rfl, by simp⟩
  | cons s rest ih =>
      intro j0
      have hred : scanMin cond loss j0 (s :: rest) none =
          scanMin cond loss (j0 + 1) rest
            (if cond s && true then some (loss s, j0) else none) := rfl
      cases hcs : cond s with
      | true =>
          have hred2 : scanMin cond loss j0 (s :: rest) none =
              scanMin cond loss (j0 + 1) rest (some (loss s, j0)) := by
            rw [hred, hcs]; rfl
          rcases scanMin_some_spec cond loss rest (j0 + 1) (loss s) j0 with
            ⟨heq, hall⟩ | ⟨p, hp, heq, hc, hlt, hmin, hfirst⟩
          · refine Or.inr ⟨0, by simp, ?_, ?_, ?_, ?_⟩
            · rw [hred2, heq]; simp
            · simpa using hcs
            · intro k hk hck
              match k, hk, hck with
              | 0, hk, hck => exact le_rfl
              | k + 1, hk, hck =>
                  simp only [List.get_cons_succ, List.get_cons_zero] at hck ⊢
                  exact hall _ (List.get_mem rest _ _) hck
            · intro k hk hk0
              exact absurd hk0 (Nat.not_lt_zero k)
          · refine Or.inr ⟨p + 1, Nat.succ_lt_succ hp, ?_, ?_, ?_, ?_⟩
            · rw [hred2, heq, List.get_cons_succ]
              congr 2
              omega
            · simpa [List.get_cons_succ] using hc
            · intro k hk hck
              match k, hk, hck with
              | 0, hk, hck =>
                  simp only [List.get_cons_succ, List.get_cons_zero]
                  exact le_of_lt hlt
              | k + 1, hk, hck =>
                  simp only [List.get_cons_succ] at hck ⊢
                  exact hmin k (Nat.lt_of_succ_lt_succ hk) hck
            · intro k hk hkp hck
              match k, hk, hck with
              | 0, hk, hck =>
                  simp only [List.get_cons_succ, List.get_cons_zero]
                  exact hlt
              | k + 1, hk, hck =>
                  simp only [List.get_cons_succ] at hck ⊢
                  exact hfirst k (Nat.lt_of_succ_lt_succ hk)
                    (Nat.lt_of_succ_lt_succ hkp) hck
      | false =>
          have hred2 : scanMin cond loss j0 (s :: rest) none =
              scanMin cond loss (j0 + 1) rest none := by
            rw [hred, hcs]; rfl
          rcases ih (j0 + 1) with ⟨heq, hall⟩ |
            ⟨p, hp, heq, hc, hmin, hfirst⟩
          · refine Or.inl ⟨by rw [hred2, heq], ?_⟩
            intro t ht
            rcases List.mem_cons.mp ht with rfl | htr
            · exact hcs
            · exact hall t htr
          · refine Or.inr ⟨p + 1, Nat.succ_lt_succ hp, ?_, ?_, ?_, ?_⟩
            · rw [hred2, heq, List.get_cons_succ]
              congr 2
              omega
            · simpa [List.get_cons_succ] using hc
            · intro k hk hck
              match k, hk, hck with
              | 0, hk, hck =>
                  have hck2 : cond s = true := hck
                  rw [hcs] at hck2
                  exact absurd hck2 (by simp)
              | k + 1, hk, hck =>
                  simp only [List.get_cons_succ] at hck ⊢
                  exact hmin k (Nat.lt_of_succ_lt_succ hk) hck
            · intro k hk hkp hck
              match k, hk, hck with
              | 0, hk, hck =>
                  have hck2 : cond s = true := hck
                  rw [hcs] at hck2
                  exact absurd hck2 (by simp)
              | k + 1, hk, hck =>
                  simp only [List.get_cons_succ] at hck ⊢
                  exact hfirst k (Nat.lt_of_succ_lt_succ hk)
                    (Nat.lt_of_succ_lt_succ hkp) hck

theorem length_modifyCur (f : ℤ → ℤ) :
    ∀ (l : List Share) (j : ℕ), (modifyCur f l j).length = l.length := by
  intro l
  induction l with
  | nil => intro j; rfl
  | cons s rest ih =>
      intro j
      cases j with
      | zero => rfl
      | succ j => simp [modifyCur, ih j]

theorem map_pe_modifyCur (f : ℤ → ℤ) :
    ∀ (l : List Share) (j : ℕ),
      (modifyCur f l j).map (fun s => (s.p, s.exact)) =
        l.map (fun s => (s.p, s.exact)) := by
  intro l
  induction l with
  | nil => intro j; rfl
  | cons s rest ih =>
      intro j
      cases j with
      | zero => rfl
      | succ j => simp [modifyCur, ih j]

theorem sumCur_modifyCur (f : ℤ → ℤ) :
    ∀ (l : List Share) (j : ℕ) (hj : j < l.length),
      sumCur (modifyCur f l j) =
        sumCur l - (l.get ⟨j, hj⟩).cur + f ((l.get ⟨j, hj⟩).cur) := by
  intro l
  induction l with
  | nil => intro j hj; exact absurd hj (Nat.not_lt_zero j)
  | cons s rest ih =>
      intro j hj
      cases j with
      | zero =>
          have hget : (s :: rest).get ⟨0, hj⟩ = s := rfl
          simp only [modifyCur, sumCur, List.map_cons, List.sum_cons, hget]
          omega
      | succ j =>
          have hj2 : j < rest.length := Nat.lt_of_succ_lt_succ hj
          simp only [modifyCur, sumCur, List.map_cons, List.sum_cons,
            List.get_cons_succ]
          have := ih j hj2
          simp only [sumCur] at this
          omega

theorem mem_modifyCur (f : ℤ → ℤ) :
    ∀ (l : List Share) (j : ℕ), ∀ s ∈ modifyCur f l j,
      s ∈ l ∨ ∃ hj : j < l.length,
        s = { l.get ⟨j, hj⟩ with cur := f ((l.get ⟨j, hj⟩).cur) } := by
  intro l
  induction l with
  | nil => intro j s hs; exact absurd hs (by simp [modifyCur])
  | cons t rest ih =>
      intro j s hs
      cases j with
      | zero =>
          simp only [modifyCur, List.mem_cons] at hs
          rcases hs with rfl | hs
          · exact Or.inr ⟨by simp, by simp⟩
          · exact Or.inl (List.mem_cons_of_mem t hs)
      | succ j =>
          simp only [modifyCur, List.mem_cons] at hs
          rcases hs with rfl | hs
          · exact Or.inl (List.mem_cons_self s rest)
          · rcases ih j s hs with h | ⟨hj, hrep⟩
            · exact Or.inl (List.mem_cons_of_mem t h)
            · exact Or.inr ⟨Nat.succ_lt_succ hj, by simpa using hrep⟩

theorem exists_pos_of_sumCur_pos :
    ∀ l : List Share, 0 < sumCur l → ∃ s ∈ l, 0 < s.cur := by
  intro l
  induction l with
  | nil => intro h; exact absurd h (by simp [sumCur])
  | cons s rest ih =>
      intro h
      simp only [sumCur, List.map_cons, List.sum_cons] at h
      by_cases hs : 0 < s.cur
      · exact ⟨s, List.mem_cons_self s rest, hs⟩
      · have : 0 < sumCur rest := by simp only [sumCur]; omega
        rcases ih this with ⟨t, ht, htpos⟩
        exact ⟨t, List.mem_cons_of_mem s ht, htpos⟩

/-- Applied form of the decrement scan: when some share is still positive,
`decOnce` decrements exactly the first positive-share entry of minimal
deviation `|(share - 1) - exact|`. -/
theorem decOnce_spec (shares : List Share) (h : ∃ s ∈ shares, 0 < s.cur) :
    ∃ j : ℕ, ∃ hj : j < shares.length,
      0 < (shares.get ⟨j, hj⟩).cur ∧
      decOnce shares = modifyCur (fun c => c - 1) shares j ∧
      (∀ (k : ℕ) (hk : k < shares.length), 0 < (shares.get ⟨k, hk⟩).cur →
        decLoss (shares.get ⟨j, hj⟩) ≤ decLoss (shares.get ⟨k, hk⟩)) ∧
      (∀ (k : ℕ) (hk : k < shares.length), k < j → 0 < (shares.get ⟨k, hk⟩).cur →
        decLoss (shares.get ⟨j, hj⟩) < decLoss (shares.get ⟨k, hk⟩)) := by
  rcases scanMin_none_spec decCond decLoss shares 0 with ⟨heq, hall⟩ |
    ⟨p, hp, heq, hc, hmin, hfirst⟩
  · rcases h with ⟨s, hs, hspos⟩
    have := hall s hs
    simp only [decCond, decide_eq_false_iff_not] at this
    exact absurd hspos this
  · rw [Nat.zero_add] at heq
    refine ⟨p, hp, ?_, ?_, ?_, ?_⟩
    · have := hc
      simp only [decCond, decide_eq_true_eq] at this
      exact this
    · unfold decOnce
      rw [heq]
    · intro k hk hkpos
      exact hmin k hk (by simpa [decCond] using hkpos)
    · intro k hk hkp hkpos
      exact hfirst k hk hkp (by simpa [decCond] using hkpos)

/-- Applied form of the increment scan: on a non-empty list `incOnce`
increments exactly the first entry of minimal deviation
`|(share + 1) - exact|`; no positivity or upper-bound condition restricts
the candidates. -/
theorem incOnce_spec (shares : List Share) (h : shares ≠ []) :
    ∃ j : ℕ, ∃ hj : j < shares.length,
      incOnce shares = modifyCur (fun c => c + 1) shares j ∧
      (∀ (k : ℕ) (hk : k < shares.length),
        incLoss (shares.get ⟨j, hj⟩) ≤ incLoss (shares.get ⟨k, hk⟩)) ∧
      (∀ (k : ℕ) (hk : k < shares.length), k < j →
        incLoss (shares.get ⟨j, hj⟩) < incLoss (shares.get ⟨k, hk⟩)) := by
  rcases scanMin_none_spec incCond incLoss shares 0 with ⟨heq, hall⟩ |
    ⟨p, hp, heq, hc, hmin, hfirst⟩
  · rcases List.exists_mem_of_ne_nil shares h with ⟨s, hs⟩
    have := hall s hs
    simp [incCond] at this
  · rw [Nat.zero_add] at heq
    refine ⟨p, hp, ?_, ?_, ?_⟩
    · unfold incOnce
      rw [heq]
    · intro k hk
      exact hmin k hk (by simp [incCond])
    · intro k hk hkp
      exact hfirst k hk hkp (by simp [incCond])

theorem length_decOnce (shares : List Share) :
    (decOnce shares).length = shares.length := by
  unfold decOnce
  cases scanMin decCond decLoss 0 shares none with
  | none => rfl
  | some v => exact length_modifyCur _ shares v.2

theorem length_incOnce (shares : List Share) :
    (incOnce shares).length = shares.length := by
  unfold incOnce
  cases scanMin incCond incLoss 0 shares none with
  | none => rfl
  | some v => exact length_modifyCur _ shares v.2

theorem map_pe_decOnce (shares : List Share) :
    (decOnce shares).map (fun s => (s.p, s.exact)) =
      shares.map (fun s => (s.p, s.exact)) := by
  unfold decOnce
  cases scanMin decCond decLoss 0 shares none with
  | none => rfl
  | some v => exact map_pe_modifyCur _ shares v.2

theorem map_pe_incOnce (shares : List Share) :
    (incOnce shares).map (fun s => (s.p, s.exact)) =
      shares.map (fun s => (s.p, s.exact)) := by
  unfold incOnce
  cases scanMin incCond incLoss 0 shares none with
  | none => rfl
  | some v => exact map_pe_modifyCur _ shares v.2

theorem sumCur_decOnce (shares : List Share) (h : ∃ s ∈ shares, 0 < s.cur) :
    sumCur (decOnce shares) = sumCur shares - 1 := by
  rcases decOnce_spec shares h with ⟨j, hj, hpos, heq, _, _⟩
  rw [heq, sumCur_modifyCur _ shares j hj]
  omega

theorem sumCur_incOnce (shares : List Share) (h : shares ≠ []) :
    sumCur (incOnce shares) = sumCur shares + 1 := by
  rcases incOnce_spec shares h with ⟨j, hj, heq, _, _⟩
  rw [heq, sumCur_modifyCur _ shares j hj]
  omega

theorem cur_nonneg_decOnce (shares : List Share)
    (h : ∀ s ∈ shares, 0 ≤ s.cur) : ∀ s ∈ decOnce shares, 0 ≤ s.cur := by
  intro s hs
  unfold decOnce at hs
  rcases scanMin_none_spec decCond decLoss shares 0 with ⟨heq, _⟩ |
    ⟨p, hp, heq, hc, _, _⟩
  · rw [heq] at hs
    exact h s hs
  · rw [Nat.zero_add] at heq
    rw [heq] at hs
    rcases mem_modifyCur _ shares p s hs with hmem | ⟨hj, hrep⟩
    · exact h s hmem
    · have hppos : 0 < (shares.get ⟨p, hj⟩).cur := by
        have := hc
        simp only [decCond, decide_eq_true_eq] at this
        exact this
      rw [hrep]
      simp only []
      omega

theorem cur_nonneg_incOnce (shares : List Share)
    (h : ∀ s ∈ shares, 0 ≤ s.cur) : ∀ s ∈ incOnce shares, 0 ≤ s.cur := by
  intro s hs
  unfold incOnce at hs
  rcases scanMin_none_spec incCond incLoss shares 0 with ⟨heq, _⟩ |
    ⟨p, hp, heq, _, _, _⟩
  · rw [heq] at hs
    exact h s hs
  · rw [Nat.zero_add] at heq
    rw [heq] at hs
    rcases mem_modifyCur _ shares p s hs with hmem | ⟨hj, hrep⟩
    · exact h s hmem
    · have := h (shares.get ⟨p, hj⟩) (List.get_mem shares _ _)
      rw [hrep]
      simp only []
      omega

theorem length_decIter : ∀ (k : ℕ) (l : List Share),
    (decIter k l).length = l.length := by
  intro k
  induction k with
  | zero => intro l; rfl
  | succ k ih => intro l; rw [decIter, ih, length_decOnce]

theorem length_incIter : ∀ (k : ℕ) (l : List Share),
    (incIter k l).length = l.length := by
  intro k
  induction k with
  | zero => intro l; rfl
  | succ k ih => intro l; rw [incIter, ih, length_incOnce]

theorem map_pe_decIter : ∀ (k : ℕ) (l : List Share),
    (decIter k l).map (fun s => (s.p, s.exact)) =
      l.map (fun s => (s.p, s.exact)) := by
  intro k
  induction k with
  | zero => intro l; rfl
  | succ k ih => intro l; rw [decIter, ih, map_pe_decOnce]

theorem map_pe_incIter : ∀ (k : ℕ) (l : List Share),
    (incIter k l).map (fun s => (s.p, s.exact)) =
      l.map (fun s => (s.p, s.exact)) := by
  intro k
  induction k with
  | zero => intro l; rfl
  | succ k ih => intro l; rw [incIter, ih, map_pe_incOnce]

/-- Conservation of the over-assignment loop: starting `k` units above a
non-negative target, `k` decrement iterations land exactly on the target
(each iteration finds a positive share to decrement because the running
total is still positive). -/
theorem sumCur_decIter (k : ℕ) : ∀ (l : List Share) (t : ℤ), 0 ≤ t →
    sumCur l = t + k → sumCur (decIter k l) = t := by
  induction k with
  | zero =>
      intro l t _ h
      simpa using h
  | succ k ih =>
      intro l t ht h
      push_cast at h
      have hpos : 0 < sumCur l := by omega
      have hex := exists_pos_of_sumCur_pos l hpos
      rw [decIter]
      apply ih (decOnce l) t ht
      rw [sumCur_decOnce l hex]
      omega

/-- The under-assignment loop adds exactly one unit per iteration (the scan
always selects an entry on a non-empty list). -/
theorem sumCur_incIter (k : ℕ) : ∀ l : List Share, l ≠ [] →
    sumCur (incIter k l) = sumCur l + k := by
  induction k with
  | zero => intro l _; simp [incIter]
  | succ k ih =>
      intro l h
      have hne : incOnce l ≠ [] := by
        intro hcon
        apply h
        have hlen := length_incOnce l
        rw [hcon] at hlen
        exact List.length_eq_zero.mp hlen.symm
      rw [incIter, ih (incOnce l) hne, sumCur_incOnce l h]
      push_cast
      ring

theorem cur_nonneg_decIter : ∀ (k : ℕ) (l : List Share),
    (∀ s ∈ l, 0 ≤ s.cur) → ∀ s ∈ decIter k l, 0 ≤ s.cur := by
  intro k
  induction k with
  | zero => intro l h; exact h
  | succ k ih =>
      intro l h
      rw [decIter]
      exact ih (decOnce l) (cur_nonneg_decOnce l h)

theorem cur_nonneg_incIter : ∀ (k : ℕ) (l : List Share),
    (∀ s ∈ l, 0 ≤ s.cur) → ∀ s ∈ incIter k l, 0 ≤ s.cur := by
  intro k
  induction k with
  | zero => intro l h; exact h
  | succ k ih =>
      intro l h
      rw [incIter]
      exact ih (incOnce l) (cur_nonneg_incOnce l h)

theorem map_p_of_map_pe {l m : List Share}
    (h : l.map (fun s => (s.p, s.exact)) = m.map (fun s => (s.p, s.exact))) :
    l.map (fun s => s.p) = m.map (fun s => s.p) := by
  have h2 := congrArg (List.map Prod.fst) h
  simpa [List.map_map, Function.comp] using h2

theorem sum_map_cast_cur : ∀ l : List Share,
    (l.map (fun s => ((s.cur : ℤ) : ℚ))).sum = ((sumCur l : ℤ) : ℚ) := by
  intro l
  induction l with
  | nil => simp [sumCur]
  | cons s rest ih =>
      simp only [sumCur, List.map_cons, List.sum_cons] at ih ⊢
      push_cast
      rw [ih]
      push_cast
      ring

theorem pyRound_nonneg {q : ℚ} (h : 0 ≤ q) : 0 ≤ pyRound q := by
  have hf : 0 ≤ ⌊q⌋ := Int.floor_nonneg.mpr h
  simp only [pyRound]
  split_ifs <;> omega

theorem pyTrunc_nonneg {q : ℚ} (h : 0 ≤ q) : 0 ≤ pyTrunc q := by
  unfold pyTrunc
  rw [if_neg (not_lt.mpr h)]
  exact Int.floor_nonneg.mpr h

theorem length_initialShares (ps : List Participant) (T q : ℚ) :
    (initialShares ps T q).length = ps.length := by
  unfold initialShares sortByDamageDesc
  rw [List.length_map, List.length_insertionSort]

theorem map_p_initialShares (ps : List Participant) (T q : ℚ) :
    (initialShares ps T q).map (fun s => s.p) = sortByDamageDesc ps := by
  unfold initialShares
  rw [List.map_map]
  exact List.map_id _

theorem mem_initialShares (ps : List Participant) (T q : ℚ) :
    ∀ s ∈ initialShares ps T q, ∃ p ∈ ps,
      s.p = p ∧ s.exact = q * (dmg p / T) ∧ s.cur = pyRound (q * (dmg p / T)) := by
  intro s hs
  unfold initialShares at hs
  rcases List.mem_map.mp hs with ⟨p, hpmem, hrep⟩
  have hpmem2 : p ∈ ps :=
    (List.perm_insertionSort dmgGe ps).subset hpmem
  exact ⟨p, hpmem2, by rw [← hrep], by rw [← hrep], by rw [← hrep]⟩

theorem cur_nonneg_initialShares (ps : List Participant) (T q : ℚ)
    (hnn : ∀ p ∈ ps, 0 ≤ dmg p) (hT : 0 ≤ T) (hq : 0 ≤ q) :
    ∀ s ∈ initialShares ps T q, 0 ≤ s.cur := by
  intro s hs
  rcases mem_initialShares ps T q s hs with ⟨p, hp, _, _, hcur⟩
  rw [hcur]
  exact pyRound_nonneg (mul_nonneg hq (div_nonneg (hnn p hp) hT))

theorem length_correctedShares (ps : List Participant) (T q : ℚ) :
    (correctedShares ps T q).length = ps.length := by
  simp only [correctedShares]
  split_ifs
  · rw [length_decIter, length_initialShares]
  · rw [length_incIter, length_initialShares]
  · rw [length_initialShares]

theorem map_p_correctedShares (ps : List Participant) (T q : ℚ) :
    (correctedShares ps T q).map (fun s => s.p) = sortByDamageDesc ps := by
  simp only [correctedShares]
  split_ifs
  · rw [map_p_of_map_pe (map_pe_decIter _ _), map_p_initialShares]
  · rw [map_p_of_map_pe (map_pe_incIter _ _), map_p_initialShares]
  · rw [map_p_initialShares]

/-- Conservation at the level of the corrected working list: for a
non-empty participant list and a quantity with non-negative truncation, the
corrected current shares sum exactly to `int(quantity)`. -/
theorem sumCur_correctedShares (ps : List Participant) (T q : ℚ)
    (hne : ps ≠ []) (hq : 0 ≤ pyTrunc q) :
    sumCur (correctedShares ps T q) = pyTrunc q := by
  have hlen : (initialShares ps T q).length = ps.length := length_initialShares ps T q
  have hne0 : initialShares ps T q ≠ [] := by
    intro hcon
    apply hne
    rw [hcon] at hlen
    exact List.length_eq_zero.mp hlen.symm
  simp only [correctedShares]
  split_ifs with h1 h2
  · apply sumCur_decIter _ _ _ hq
    omega
  · rw [sumCur_incIter _ _ hne0]
    omega
  · omega

theorem cur_nonneg_correctedShares (ps : List Participant) (T q : ℚ)
    (h0 : ∀ s ∈ initialShares ps T q, 0 ≤ s.cur) :
    ∀ s ∈ correctedShares ps T q, 0 ≤ s.cur := by
  simp only [correctedShares]
  split_ifs
  · exact cur_nonneg_decIter _ _ h0
  · exact cur_nonneg_incIter _ _ h0
  · exact h0

/-- Sum of the quantities returned by the integer distribution: exactly
`int(quantity)` whenever the guard passes. -/
theorem calcInt_sum (ps : List Participant) (T q : ℚ)
    (hne : ps ≠ []) (hT : T ≠ 0) (hq : 0 ≤ q) :
    ((calculate_integer_distribution ps T q).map (fun t => t.2.2)).sum =
      ((pyTrunc q : ℤ) : ℚ) := by
  unfold calculate_integer_distribution
  rw [if_neg (fun hor => hor.elim hne hT)]
  have hperm : (sortByFst ((correctedShares ps T q).map
      (fun s => (s.p.id, s.p.name, (s.cur : ℚ))))).Perm
      ((correctedShares ps T q).map (fun s => (s.p.id, s.p.name, (s.cur : ℚ)))) :=
    List.perm_insertionSort fstLe _
  rw [(hperm.map (fun t => t.2.2)).sum_eq, List.map_map]
  have : ((fun (t : ℕ × String × ℚ) => t.2.2) ∘
      (fun s => (s.p.id, s.p.name, (s.cur : ℚ)))) =
      fun (s : Share) => ((s.cur : ℤ) : ℚ) := rfl
  rw [this, sum_map_cast_cur, sumCur_correctedShares ps T q hne (pyTrunc_nonneg hq)]

theorem calcInt_length (ps : List Participant) (T q : ℚ)
    (hne : ps ≠ []) (hT : T ≠ 0) :
    (calculate_integer_distribution ps T q).length = ps.length := by
  unfold calculate_integer_distribution
  rw [if_neg (fun hor => hor.elim hne hT)]
  unfold sortByFst
  rw [List.length_insertionSort, List.length_map, length_correctedShares]

/-- The ids of the integer-distribution result are sorted ascending and are
a permutation of the ids of the participants passed in. -/
theorem calcInt_fst (ps : List Participant) (T q : ℚ)
    (hne : ps ≠ []) (hT : T ≠ 0) :
    ((calculate_integer_distribution ps T q).map (fun t => t.1)).Sorted (· ≤ ·) ∧
    ((calculate_integer_distribution ps T q).map (fun t => t.1)).Perm
      (ps.map (fun p => p.id)) := by
  unfold calculate_integer_distribution
  rw [if_neg (fun hor => hor.elim hne hT)]
  constructor
  · have hs : (sortByFst ((correctedShares ps T q).map
        (fun s => (s.p.id, s.p.name, (s.cur : ℚ))))).Sorted fstLe :=
      List.sorted_insertionSort fstLe _
    exact hs.map _ (fun a b h => h)
  · have hperm : (sortByFst ((correctedShares ps T q).map
        (fun s => (s.p.id, s.p.name, (s.cur : ℚ))))).Perm
        ((correctedShares ps T q).map (fun s => (s.p.id, s.p.name, (s.cur : ℚ)))) :=
      List.perm_insertionSort fstLe _
    refine (hperm.map (fun t => t.1)).trans ?_
    rw [List.map_map]
    have : ((fun (t : ℕ × String × ℚ) => t.1) ∘
        (fun s => (s.p.id, s.p.name, (s.cur : ℚ)))) =
        ((fun p => p.id) ∘ (fun (s : Share) => s.p)) := rfl
    rw [this, ← List.map_map, map_p_correctedShares]
    exact (List.perm_insertionSort dmgGe ps).map _

theorem calcInt_nonneg (ps : List Participant) (T q : ℚ)
    (hnn : ∀ p ∈ ps, 0 ≤ dmg p) (hT : 0 ≤ T) (hq : 0 ≤ q) :
    ∀ t ∈ calculate_integer_distribution ps T q, 0 ≤ t.2.2 := by
  intro t ht
  unfold calculate_integer_distribution at ht
  by_cases hg : ps = [] ∨ T = 0
  · rw [if_pos hg] at ht
    exact absurd ht (List.not_mem_nil t)
  · rw [if_neg hg] at ht
    have ht2 : t ∈ (correctedShares ps T q).map
        (fun s => (s.p.id, s.p.name, (s.cur : ℚ))) :=
      (List.perm_insertionSort fstLe _).subset ht
    rcases List.mem_map.mp ht2 with ⟨s, hsmem, hrep⟩
    have hcur : 0 ≤ s.cur :=
      cur_nonneg_correctedShares ps T q
        (cur_nonneg_initialShares ps T q hnn hT hq) s hsmem
    rw [← hrep]
    show (0 : ℚ) ≤ (s.cur : ℚ)
    exact_mod_cast hcur

theorem restrictedOrdered_ne_nil (prize : Prize) (ps : List Participant)
    (h : 0 < restrictedTotal prize ps) : restrictedOrdered prize ps ≠ [] := by
  intro hcon
  rw [restrictedTotal, hcon] at h
  exact absurd h (by simp)

theorem active_ne_nil_of_rtotal_pos (prize : Prize) (ps : List Participant)
    (h : 0 < restrictedTotal prize ps) : activeParticipants ps ≠ [] := by
  intro hcon
  apply restrictedOrdered_ne_nil prize ps h
  rw [restrictedOrdered, hcon]
  unfold sortById
  simp

theorem mem_active_mem (ps : List Participant) :
    ∀ p ∈ activeParticipants ps, p ∈ ps := by
  intro p hp
  exact List.mem_of_mem_filter hp

theorem rtotal_le_total (prize : Prize) (ps : List Participant)
    (hnn : ∀ p ∈ ps, 0 ≤ dmg p) :
    restrictedTotal prize ps ≤ ((activeParticipants ps).map dmg).sum := by
  have hperm : (sortById (activeParticipants ps)).Perm (activeParticipants ps) :=
    List.perm_insertionSort idLe _
  rw [restrictedTotal, restrictedOrdered]
  split_ifs with hsp
  · have hsplit : sortById (activeParticipants ps) =
        (sortById (activeParticipants ps)).take prize.top_winners ++
        (sortById (activeParticipants ps)).drop prize.top_winners :=
      (List.take_append_drop _ _).symm
    have h2 : ((sortById (activeParticipants ps)).map dmg).sum =
        (((sortById (activeParticipants ps)).take prize.top_winners).map dmg).sum +
        (((sortById (activeParticipants ps)).drop prize.top_winners).map dmg).sum := by
      conv_lhs => rw [hsplit]
      rw [List.map_append, List.sum_append]
    have h3 : 0 ≤ (((sortById (activeParticipants ps)).drop
        prize.top_winners).map dmg).sum := by
      apply List.sum_nonneg
      intro x hx
      rcases List.mem_map.mp hx with ⟨p, hpmem, hrep⟩
      have : p ∈ ps :=
        mem_active_mem ps p (hperm.subset (List.drop_subset _ _ hpmem))
      rw [← hrep]
      exact hnn p this
    have h4 := (hperm.map dmg).sum_eq
    rw [← h4, h2]
    linarith
  · exact le_of_eq ((hperm.map dmg).sum_eq)

theorem total_pos_of_rtotal_pos (prize : Prize) (ps : List Participant)
    (hnn : ∀ p ∈ ps, 0 ≤ dmg p) (h : 0 < restrictedTotal prize ps) :
    0 < ((activeParticipants ps).map dmg).sum :=
  lt_of_lt_of_le h (rtotal_le_total prize ps hnn)

theorem sorted_restrictedOrdered (prize : Prize) (ps : List Participant) :
    (restrictedOrdered prize ps).Sorted idLe := by
  rw [restrictedOrdered]
  split_ifs
  · exact List.Pairwise.sublist (List.take_sublist _ _)
      (List.sorted_insertionSort idLe _)
  · exact List.sorted_insertionSort idLe _

/-- C7: for every prize and mode, if the eligible set is empty or the total
eligible weight is zero, `calculate_distribution` returns the empty list
(the embedding is a total function, so no exception is propagated). -/
theorem C7_degenerate_input_empty_result (prize : Prize)
    (ps : List Participant) (integer_only : Bool)
    (h : activeParticipants ps = [] ∨ ((activeParticipants ps).map dmg).sum = 0) :
    calculate_distribution prize ps integer_only = [] := by
  simp only [calculate_distribution]
  rcases h with h | h
  · rw [if_pos h]
  · by_cases h0 : activeParticipants ps = []
    · rw [if_pos h0]
    · rw [if_neg h0, if_pos h]

/-- Witness for C7 at a concrete input: a roster whose only participant is
disabled yields the empty distribution. -/
theorem C7_degenerate_input_empty_result_witness :
    (activeParticipants [⟨1, "A", .val 3, false⟩] = [] ∨
      ((activeParticipants [⟨1, "A", .val 3, false⟩]).map dmg).sum = 0) ∧
    calculate_distribution ⟨1, "P", 5, false, 1⟩ [⟨1, "A", .val 3, false⟩] false = [] :=
  ⟨Or.inl (by simp [activeParticipants]),
    C7_degenerate_input_empty_result _ _ _ (Or.inl (by simp [activeParticipants]))⟩

/-- C9: the special-prize winner selection of the interactive path
(ascending id) and of the state-update recomputation path (descending
damage) pick different winner subsets on some input. -/
theorem C9_selection_paths_differ :
    ∃ (active : List Participant) (n : ℕ),
      (selectWinnersById active n).map (fun p => p.id) ≠
      (selectWinnersByDamage active n).map (fun p => p.id) := by
  refine ⟨[⟨1, "A", .val 1, true⟩, ⟨2, "B", .val 10, true⟩], 1, ?_⟩
  norm_num [selectWinnersById, selectWinnersByDamage, sortById, sortByDamageDesc,
    List.insertionSort, List.orderedInsert, idLe, dmgGe, dmg]

/-- C10: the distribution computation never mutates its inputs.  The only
write operation of the source is `shares[min_idx][1] -= 1` / `+= 1` on the
internal working list; the correction loops change only the `cur` slot of
the working entries (participant and exact-share slots are untouched), and
the participant records carried through the corrected working list are
exactly the caller's participants. -/
theorem C10_no_input_mutation :
    (∀ (k : ℕ) (shares : List Share),
      (decIter k shares).map (fun s => (s.p, s.exact)) =
        shares.map (fun s => (s.p, s.exact)) ∧
      (incIter k shares).map (fun s => (s.p, s.exact)) =
        shares.map (fun s => (s.p, s.exact))) ∧
    (∀ (ps : List Participant) (T q : ℚ),
      ((correctedShares ps T q).map (fun s => s.p)).Perm ps) := by
  constructor
  · intro k shares
    exact ⟨map_pe_decIter k shares, map_pe_incIter k shares⟩
  · intro ps T q
    rw [map_p_correctedShares]
    exact List.perm_insertionSort dmgGe ps

/-- C2: in real-valued mode, whenever the (restricted) eligible set has
positive total weight, every emitted share equals
`prize.quantity * weight / total_weight` with the total recomputed over the
restricted subset, and the tuples are emitted in ascending-id order. -/
theorem C2_real_mode_proportional (prize : Prize) (ps : List Participant)
    (hnn : ∀ p ∈ ps, 0 ≤ dmg p) (hrt : 0 < restrictedTotal prize ps) :
    calculate_distribution prize ps false =
      (restrictedOrdered prize ps).map (fun p =>
        (p.id, p.name, prize.quantity * dmg p / restrictedTotal prize ps)) ∧
    ((calculate_distribution prize ps false).map (fun t => t.1)).Sorted (· ≤ ·) := by
  have hact := active_ne_nil_of_rtotal_pos prize ps hrt
  have htot : ((activeParticipants ps).map dmg).sum ≠ 0 :=
    ne_of_gt (total_pos_of_rtotal_pos prize ps hnn hrt)
  have hmain : calculate_distribution prize ps false =
      (restrictedOrdered prize ps).map (fun p =>
        (p.id, p.name, prize.quantity * dmg p / restrictedTotal prize ps)) := by
    simp only [calculate_distribution]
    rw [if_neg hact, if_neg htot]
    cases hsp : prize.is_special with
    | true =>
        simp only [hsp, if_true, Bool.false_eq_true, if_false]
        have hrteq : restrictedTotal prize ps =
            (((sortById (activeParticipants ps)).take prize.top_winners).map dmg).sum := by
          simp [restrictedTotal, restrictedOrdered, hsp]
        rw [if_neg (by rw [← hrteq]; exact ne_of_gt hrt)]
        have hro : restrictedOrdered prize ps =
            (sortById (activeParticipants ps)).take prize.top_winners := by
          simp [restrictedOrdered, hsp]
        rw [hro, ← hrteq]
        apply List.map_congr_left
        intro p _
        rw [mul_div_assoc]
    | false =>
        simp only [hsp, Bool.false_eq_true, if_false]
        have hro : restrictedOrdered prize ps = sortById (activeParticipants ps) := by
          simp [restrictedOrdered, hsp]
        have hrteq : restrictedTotal prize ps =
            ((activeParticipants ps).map dmg).sum := by
          rw [restrictedTotal, hro]
          exact ((List.perm_insertionSort idLe _).map dmg).sum_eq
        rw [hro, ← hrteq]
        apply List.map_congr_left
        intro p _
        rw [mul_div_assoc]
  refine ⟨hmain, ?_⟩
  rw [hmain, List.map_map]
  have hcomp : ((fun (t : ℕ × String × ℚ) => t.1) ∘ (fun p =>
      (p.id, p.name, prize.quantity * dmg p / restrictedTotal prize ps))) =
      fun (p : Participant) => p.id := rfl
  rw [hcomp]
  exact (sorted_restrictedOrdered prize ps).map _ (fun a b h => h)

/-- Witness for C2 at a concrete input: two participants with weights 2 and 3
and a prize of 5 receive exactly 2 and 3, in ascending-id order. -/
theorem C2_real_mode_proportional_witness :
    (∀ p ∈ [(⟨2, "B", .val 3, true⟩ : Participant), ⟨1, "A", .val 2, true⟩], 0 ≤ dmg p) ∧
    0 < restrictedTotal ⟨1, "P", 5, false, 1⟩
      [⟨2, "B", .val 3, true⟩, ⟨1, "A", .val 2, true⟩] ∧
    (calculate_distribution ⟨1, "P", 5, false, 1⟩
        [⟨2, "B", .val 3, true⟩, ⟨1, "A", .val 2, true⟩] false =
      (restrictedOrdered ⟨1, "P", 5, false, 1⟩
          [⟨2, "B", .val 3, true⟩, ⟨1, "A", .val 2, true⟩]).map (fun p =>
        (p.id, p.name, (5 : ℚ) * dmg p / restrictedTotal ⟨1, "P", 5, false, 1⟩
          [⟨2, "B", .val 3, true⟩, ⟨1, "A", .val 2, true⟩])) ∧
      ((calculate_distribution ⟨1, "P", 5, false, 1⟩
          [⟨2, "B", .val 3, true⟩, ⟨1, "A", .val 2, true⟩] false).map
        (fun t => t.1)).Sorted (· ≤ ·)) :=
  ⟨by
    intro p hp
    rcases List.mem_cons.mp hp with rfl | hp2
    · norm_num [dmg]
    · rcases List.mem_cons.mp hp2 with rfl | hp3
      · norm_num [dmg]
      · exact absurd hp3 (List.not_mem_nil p),
   by
    norm_num [restrictedTotal, restrictedOrdered, activeParticipants, sortById,
      List.insertionSort, List.orderedInsert, idLe, dmg, Damage.isExcluded],
   C2_real_mode_proportional _ _
     (by
       intro p hp
       rcases List.mem_cons.mp hp with rfl | hp2
       · norm_num [dmg]
       · rcases List.mem_cons.mp hp2 with rfl | hp3
         · norm_num [dmg]
         · exact absurd hp3 (List.not_mem_nil p))
     (by
       norm_num [restrictedTotal, restrictedOrdered, activeParticipants, sortById,
         List.insertionSort, List.orderedInsert, idLe, dmg, Damage.isExcluded])⟩

/-- C1 counterexample: with one eligible participant of weight 1 (positive
total weight) and `quantity = 2.7`, the integer-mode sum is `int(2.7) = 2`,
not `round(2.7) = 3`: the source conserves the truncation of the quantity,
not its rounding. -/
theorem C1_counterexample :
    0 < restrictedTotal ⟨1, "P", 27/10, false, 1⟩ [⟨1, "A", .val 1, true⟩] ∧
    ((calculate_distribution ⟨1, "P", 27/10, false, 1⟩
        [⟨1, "A", .val 1, true⟩] true).map (fun t => t.2.2)).sum = 2 ∧
    pyRound (27/10 : ℚ) = 3 := by
  refine ⟨?_, ?_, ?_⟩
  · norm_num [restrictedTotal, restrictedOrdered, activeParticipants, sortById,
      List.insertionSort, List.orderedInsert, idLe, dmg, Damage.isExcluded]
  · norm_num [calculate_distribution, activeParticipants, List.filter, dmg,
      Damage.isExcluded, sortById, sortByDamageDesc, sortByFst, List.insertionSort,
      List.orderedInsert, idLe, dmgGe, fstLe, calculate_integer_distribution,
      correctedShares, initialShares, sumCur, pyRound, pyTrunc, incIter, incOnce,
      decIter, decOnce, scanMin, incCond, incLoss, decCond, decLoss, modifyCur,
      List.cons_ne_nil]
  · norm_num [pyRound]

/-- C1 amended: in integer mode, for every prize with non-negative quantity
and every roster with non-negative weights whose (restricted) eligible set
has positive total weight, the allocated quantities sum exactly to
`int(prize.quantity)` — the truncation of the quantity, which coincides
with `round(prize.quantity)` whenever the quantity is integral. -/
theorem C1_integer_conservation_trunc (prize : Prize) (ps : List Participant)
    (hnn : ∀ p ∈ ps, 0 ≤ dmg p) (hrt : 0 < restrictedTotal prize ps)
    (hq : 0 ≤ prize.quantity) :
    ((calculate_distribution prize ps true).map (fun t => t.2.2)).sum =
      ((pyTrunc prize.quantity : ℤ) : ℚ) := by
  have hact := active_ne_nil_of_rtotal_pos prize ps hrt
  have htot : ((activeParticipants ps).map dmg).sum ≠ 0 :=
    ne_of_gt (total_pos_of_rtotal_pos prize ps hnn hrt)
  simp only [calculate_distribution]
  rw [if_neg hact, if_neg htot]
  cases hsp : prize.is_special with
  | true =>
      simp only [hsp, if_true]
      have hrteq : restrictedTotal prize ps =
          (((sortById (activeParticipants ps)).take prize.top_winners).map dmg).sum := by
        simp [restrictedTotal, restrictedOrdered, hsp]
      have hro : restrictedOrdered prize ps =
          (sortById (activeParticipants ps)).take prize.top_winners := by
        simp [restrictedOrdered, hsp]
      apply calcInt_sum
      · rw [← hro]
        exact restrictedOrdered_ne_nil prize ps hrt
      · rw [← hrteq]
        exact ne_of_gt hrt
      · exact hq
  | false =>
      simp only [hsp, Bool.false_eq_true, if_false]
      exact calcInt_sum _ _ _ hact htot hq

/-- Witness for the amended C1: quantity 10 split over three unit weights
sums to exactly 10. -/
theorem C1_integer_conservation_trunc_witness :
    (∀ p ∈ [(⟨1, "A", .val 1, true⟩ : Participant), ⟨2, "B", .val 1, true⟩,
        ⟨3, "C", .val 1, true⟩], 0 ≤ dmg p) ∧
    0 < restrictedTotal ⟨1, "P", 10, false, 1⟩
      [⟨1, "A", .val 1, true⟩, ⟨2, "B", .val 1, true⟩, ⟨3, "C", .val 1, true⟩] ∧
    (0 : ℚ) ≤ 10 ∧
    ((calculate_distribution ⟨1, "P", 10, false, 1⟩
        [⟨1, "A", .val 1, true⟩, ⟨2, "B", .val 1, true⟩, ⟨3, "C", .val 1, true⟩]
        true).map (fun t => t.2.2)).sum = ((pyTrunc (10 : ℚ) : ℤ) : ℚ) := by
  have hnn : ∀ p ∈ [(⟨1, "A", .val 1, true⟩ : Participant), ⟨2, "B", .val 1, true⟩,
      ⟨3, "C", .val 1, true⟩], 0 ≤ dmg p := by
    intro p hp
    rcases List.mem_cons.mp hp with rfl | hp2
    · norm_num [dmg]
    · rcases List.mem_cons.mp hp2 with rfl | hp3
      · norm_num [dmg]
      · rcases List.mem_cons.mp hp3 with rfl | hp4
        · norm_num [dmg]
        · exact absurd hp4 (List.not_mem_nil p)
  have hrt : 0 < restrictedTotal ⟨1, "P", 10, false, 1⟩
      [⟨1, "A", .val 1, true⟩, ⟨2, "B", .val 1, true⟩, ⟨3, "C", .val 1, true⟩] := by
    norm_num [restrictedTotal, restrictedOrdered, activeParticipants, sortById,
      List.insertionSort, List.orderedInsert, idLe, dmg, Damage.isExcluded]
  exact ⟨hnn, hrt, by norm_num,
    C1_integer_conservation_trunc _ _ hnn hrt (by norm_num)⟩

/-- C6: with non-negative weights and a non-negative prize quantity, no
allocated quantity is negative, in either mode (in particular the
integer-mode decrement correction never drives a share below zero). -/
theorem C6_allocations_nonneg (prize : Prize) (ps : List Participant)
    (integer_only : Bool) (hnn : ∀ p ∈ ps, 0 ≤ dmg p)
    (hq : 0 ≤ prize.quantity) :
    ∀ t ∈ calculate_distribution prize ps integer_only, 0 ≤ t.2.2 := by
  have hmem_act : ∀ p ∈ activeParticipants ps, p ∈ ps := mem_active_mem ps
  have hmem_top : ∀ p ∈ (sortById (activeParticipants ps)).take prize.top_winners,
      p ∈ ps := by
    intro p hp
    exact hmem_act p ((List.perm_insertionSort idLe _).subset
      (List.take_subset _ _ hp))
  have hnn_top : ∀ p ∈ (sortById (activeParticipants ps)).take prize.top_winners,
      0 ≤ dmg p := fun p hp => hnn p (hmem_top p hp)
  have hnn_act : ∀ p ∈ activeParticipants ps, 0 ≤ dmg p :=
    fun p hp => hnn p (hmem_act p hp)
  have hwT : 0 ≤ (((sortById (activeParticipants ps)).take
      prize.top_winners).map dmg).sum := by
    apply List.sum_nonneg
    intro x hx
    rcases List.mem_map.mp hx with ⟨p, hpmem, hrep⟩
    rw [← hrep]
    exact hnn_top p hpmem
  have htotal : 0 ≤ ((activeParticipants ps).map dmg).sum := by
    apply List.sum_nonneg
    intro x hx
    rcases List.mem_map.mp hx with ⟨p, hpmem, hrep⟩
    rw [← hrep]
    exact hnn_act p hpmem
  simp only [calculate_distribution]
  split_ifs with h1 h2 h3 h4 h5 h6
  · intro t ht; exact absurd ht (List.not_mem_nil t)
  · intro t ht; exact absurd ht (List.not_mem_nil t)
  · exact calcInt_nonneg _ _ _ hnn_top hwT hq
  · intro t ht; exact absurd ht (List.not_mem_nil t)
  · intro t ht
    rcases List.mem_map.mp ht with ⟨p, hpmem, hrep⟩
    rw [← hrep]
    show (0 : ℚ) ≤ prize.quantity * (dmg p / _)
    exact mul_nonneg hq (div_nonneg (hnn_top p hpmem) hwT)
  · exact calcInt_nonneg _ _ _ hnn_act htotal hq
  · intro t ht
    rcases List.mem_map.mp ht with ⟨p, hpmem, hrep⟩
    rw [← hrep]
    show (0 : ℚ) ≤ prize.quantity * (dmg p / _)
    refine mul_nonneg hq (div_nonneg ?_ htotal)
    exact hnn_act p ((List.perm_insertionSort idLe _).subset hpmem)

/-- Witness for C6: a concrete mixed roster in integer mode yields only
non-negative allocations. -/
theorem C6_allocations_nonneg_witness :
    (∀ p ∈ [(⟨1, "A", .val 7, true⟩ : Participant), ⟨2, "B", .val 1, true⟩],
      0 ≤ dmg p) ∧
    (0 : ℚ) ≤ (8 : ℚ) ∧
    (∀ t ∈ calculate_distribution ⟨1, "P", 8, false, 1⟩
        [⟨1, "A", .val 7, true⟩, ⟨2, "B", .val 1, true⟩] true, 0 ≤ t.2.2) := by
  have hnn : ∀ p ∈ [(⟨1, "A", .val 7, true⟩ : Participant), ⟨2, "B", .val 1, true⟩],
      0 ≤ dmg p := by
    intro p hp
    rcases List.mem_cons.mp hp with rfl | hp2
    · norm_num [dmg]
    · rcases List.mem_cons.mp hp2 with rfl | hp3
      · norm_num [dmg]
      · exact absurd hp3 (List.not_mem_nil p)
  exact ⟨hnn, by norm_num,
    C6_allocations_nonneg ⟨1, "P", 8, false, 1⟩ _ true hnn (by norm_num)⟩

/-- C4 counterexample: a special prize with `top_winners = 1` over
participants `id 1` (weight 0) and `id 2` (weight 5): the lowest-id eligible
participant is id 1, but the result is empty (the restricted winner set has
zero total weight, so the caught division-by-zero yields `[]`), so the
result does not consist of exactly the lowest-id eligible participant. -/
theorem C4_counterexample :
    calculate_distribution ⟨3, "S", 6, true, 1⟩
      [⟨1, "A", .val 0, true⟩, ⟨2, "B", .val 5, true⟩] false = [] ∧
    (restrictedOrdered ⟨3, "S", 6, true, 1⟩
      [⟨1, "A", .val 0, true⟩, ⟨2, "B", .val 5, true⟩]).map (fun p => p.id) = [1] := by
  constructor
  · norm_num [calculate_distribution, activeParticipants, List.filter, dmg,
      Damage.isExcluded, sortById, List.insertionSort, List.orderedInsert, idLe,
      List.cons_ne_nil]
  · norm_num [restrictedOrdered, activeParticipants, List.filter, sortById,
      List.insertionSort, List.orderedInsert, idLe, Damage.isExcluded]

/-- C4 amended: for a special prize the result always has at most
`top_winners` entries; and whenever the selected winner subset has positive
total weight, the participants in the result are exactly the `top_winners`
lowest-id eligible participants (all of them if fewer are eligible). -/
theorem C4_special_cap (prize : Prize) (ps : List Participant)
    (integer_only : Bool) (hsp : prize.is_special = true) :
    (calculate_distribution prize ps integer_only).length ≤ prize.top_winners ∧
    ((∀ p ∈ ps, 0 ≤ dmg p) → 0 < restrictedTotal prize ps →
      (calculate_distribution prize ps integer_only).map (fun t => t.1) =
        (restrictedOrdered prize ps).map (fun p => p.id)) := by
  have hro : restrictedOrdered prize ps =
      (sortById (activeParticipants ps)).take prize.top_winners := by
    simp [restrictedOrdered, hsp]
  have hrteq : restrictedTotal prize ps =
      (((sortById (activeParticipants ps)).take prize.top_winners).map dmg).sum := by
    simp [restrictedTotal, restrictedOrdered, hsp]
  have htklen : ((sortById (activeParticipants ps)).take prize.top_winners).length ≤
      prize.top_winners := by
    rw [List.length_take]
    exact min_le_left _ _
  constructor
  · simp only [calculate_distribution, hsp, if_true]
    split_ifs with h1 h2 h3 h4
    · simp
    · simp
    · by_cases hg : (sortById (activeParticipants ps)).take prize.top_winners = [] ∨
          (((sortById (activeParticipants ps)).take prize.top_winners).map dmg).sum = 0
      · unfold calculate_integer_distribution
        rw [if_pos hg]
        simp
      · push_neg at hg
        rw [calcInt_length _ _ _ hg.1 hg.2]
        exact htklen
    · simp
    · rw [List.length_map]
      exact htklen
  · intro hnn hrt
    have hact := active_ne_nil_of_rtotal_pos prize ps hrt
    have htot : ((activeParticipants ps).map dmg).sum ≠ 0 :=
      ne_of_gt (total_pos_of_rtotal_pos prize ps hnn hrt)
    have hne_top : (sortById (activeParticipants ps)).take prize.top_winners ≠ [] := by
      rw [← hro]
      exact restrictedOrdered_ne_nil prize ps hrt
    have hwT : (((sortById (activeParticipants ps)).take
        prize.top_winners).map dmg).sum ≠ 0 := by
      rw [← hrteq]
      exact ne_of_gt hrt
    have hts : ((restrictedOrdered prize ps).map (fun p => p.id)).Sorted (· ≤ ·) :=
      (sorted_restrictedOrdered prize ps).map _ (fun a b h => h)
    simp only [calculate_distribution, hsp, if_true]
    rw [if_neg hact, if_neg htot]
    cases integer_only with
    | true =>
        simp only [if_true]
        rcases calcInt_fst _ _ prize.quantity hne_top hwT with ⟨hsort, hperm⟩
        rw [hro] at hts
        rw [hro]
        exact List.eq_of_perm_of_sorted hperm hsort hts
    | false =>
        simp only [Bool.false_eq_true, if_false]
        rw [if_neg hwT, List.map_map, hro]
        rfl

/-- Witness for the amended C4: special prize with two winners over three
participants selects ids 1 and 2. -/
theorem C4_special_cap_witness :
    ((⟨7, "S", 6, true, 2⟩ : Prize).is_special = true) ∧
    (calculate_distribution ⟨7, "S", 6, true, 2⟩
      [⟨1, "A", .val 1, true⟩, ⟨2, "B", .val 2, true⟩, ⟨3, "C", .val 3, true⟩]
      false).length ≤ 2 ∧
    (calculate_distribution ⟨7, "S", 6, true, 2⟩
      [⟨1, "A", .val 1, true⟩, ⟨2, "B", .val 2, true⟩, ⟨3, "C", .val 3, true⟩]
      false).map (fun t => t.1) =
      (restrictedOrdered ⟨7, "S", 6, true, 2⟩
        [⟨1, "A", .val 1, true⟩, ⟨2, "B", .val 2, true⟩,
          ⟨3, "C", .val 3, true⟩]).map (fun p => p.id) := by
  have hnn : ∀ p ∈ [(⟨1, "A", .val 1, true⟩ : Participant), ⟨2, "B", .val 2, true⟩,
      ⟨3, "C", .val 3, true⟩], 0 ≤ dmg p := by
    intro p hp
    rcases List.mem_cons.mp hp with rfl | hp2
    · norm_num [dmg]
    · rcases List.mem_cons.mp hp2 with rfl | hp3
      · norm_num [dmg]
      · rcases List.mem_cons.mp hp3 with rfl | hp4
        · norm_num [dmg]
        · exact absurd hp4 (List.not_mem_nil p)
  have hrt : 0 < restrictedTotal ⟨7, "S", 6, true, 2⟩
      [⟨1, "A", .val 1, true⟩, ⟨2, "B", .val 2, true⟩, ⟨3, "C", .val 3, true⟩] := by
    norm_num [restrictedTotal, restrictedOrdered, activeParticipants, sortById,
      List.insertionSort, List.orderedInsert, idLe, dmg, Damage.isExcluded]
  have h := C4_special_cap ⟨7, "S", 6, true, 2⟩
    [⟨1, "A", .val 1, true⟩, ⟨2, "B", .val 2, true⟩, ⟨3, "C", .val 3, true⟩]
    false rfl
  exact ⟨rfl, h.1, h.2 hnn hrt⟩

/-- C8 counterexample: one enabled participant with weight 0 is a non-empty
eligible set, yet the result is empty (zero total weight), so the output
length does not equal the eligible-set size. -/
theorem C8_counterexample :
    activeParticipants [⟨1, "A", .val 0, true⟩] ≠ [] ∧
    (calculate_distribution ⟨1, "P", 5, false, 1⟩
      [⟨1, "A", .val 0, true⟩] false).length = 0 ∧
    (restrictedOrdered ⟨1, "P", 5, false, 1⟩ [⟨1, "A", .val 0, true⟩]).length = 1 := by
  refine ⟨?_, ?_, ?_⟩
  · norm_num [activeParticipants, List.filter, Damage.isExcluded]
  · norm_num [calculate_distribution, activeParticipants, List.filter, dmg,
      Damage.isExcluded, List.cons_ne_nil]
  · norm_num [restrictedOrdered, activeParticipants, List.filter, sortById,
      List.insertionSort, List.orderedInsert, Damage.isExcluded]

/-- C8 amended: whenever the (restricted) eligible set has positive total
weight, the output length equals the size of the restricted eligible set,
and the integer-mode output is sorted by ascending participant id. -/
theorem C8_length_eq_and_sorted (prize : Prize) (ps : List Participant)
    (integer_only : Bool) (hnn : ∀ p ∈ ps, 0 ≤ dmg p)
    (hrt : 0 < restrictedTotal prize ps) :
    (calculate_distribution prize ps integer_only).length =
      (restrictedOrdered prize ps).length ∧
    ((calculate_distribution prize ps true).map (fun t => t.1)).Sorted (· ≤ ·) := by
  have hact := active_ne_nil_of_rtotal_pos prize ps hrt
  have htot : ((activeParticipants ps).map dmg).sum ≠ 0 :=
    ne_of_gt (total_pos_of_rtotal_pos prize ps hnn hrt)
  cases hsp : prize.is_special with
  | true =>
      have hro : restrictedOrdered prize ps =
          (sortById (activeParticipants ps)).take prize.top_winners := by
        simp [restrictedOrdered, hsp]
      have hrteq : restrictedTotal prize ps =
          (((sortById (activeParticipants ps)).take prize.top_winners).map dmg).sum := by
        simp [restrictedTotal, restrictedOrdered, hsp]
      have hne_top : (sortById (activeParticipants ps)).take prize.top_winners ≠ [] := by
        rw [← hro]
        exact restrictedOrdered_ne_nil prize ps hrt
      have hwT : (((sortById (activeParticipants ps)).take
          prize.top_winners).map dmg).sum ≠ 0 := by
        rw [← hrteq]
        exact ne_of_gt hrt
      constructor
      · simp only [calculate_distribution, hsp, if_true]
        rw [if_neg hact, if_neg htot, hro]
        cases integer_only with
        | true =>
            simp only [if_true]
            exact calcInt_length _ _ _ hne_top hwT
        | false =>
            simp only [Bool.false_eq_true, if_false]
            rw [if_neg hwT, List.length_map]
      · simp only [calculate_distribution, hsp, if_true]
        rw [if_neg hact, if_neg htot]
        exact (calcInt_fst _ _ prize.quantity hne_top hwT).1
  | false =>
      have hro : restrictedOrdered prize ps = sortById (activeParticipants ps) := by
        simp [restrictedOrdered, hsp]
      constructor
      · simp only [calculate_distribution, hsp, Bool.false_eq_true, if_false]
        rw [if_neg hact, if_neg htot, hro]
        cases integer_only with
        | true =>
            simp only [if_true]
            rw [calcInt_length _ _ _ hact htot]
            unfold sortById
            rw [List.length_insertionSort]
        | false =>
            simp only [Bool.false_eq_true, if_false]
            rw [List.length_map]
      · simp only [calculate_distribution, hsp, Bool.false_eq_true, if_false]
        rw [if_neg hact, if_neg htot]
        exact (calcInt_fst _ _ prize.quantity hact htot).1

/-- Witness for the amended C8: two enabled participants, integer mode — two
output rows, ids ascending. -/
theorem C8_length_eq_and_sorted_witness :
    (∀ p ∈ [(⟨2, "B", .val 3, true⟩ : Participant), ⟨1, "A", .val 4, true⟩],
      0 ≤ dmg p) ∧
    0 < restrictedTotal ⟨2, "P", 7, false, 1⟩
      [⟨2, "B", .val 3, true⟩, ⟨1, "A", .val 4, true⟩] ∧
    ((calculate_distribution ⟨2, "P", 7, false, 1⟩
        [⟨2, "B", .val 3, true⟩, ⟨1, "A", .val 4, true⟩] true).length =
      (restrictedOrdered ⟨2, "P", 7, false, 1⟩
        [⟨2, "B", .val 3, true⟩, ⟨1, "A", .val 4, true⟩]).length ∧
    ((calculate_distribution ⟨2, "P", 7, false, 1⟩
        [⟨2, "B", .val 3, true⟩, ⟨1, "A", .val 4, true⟩] true).map
      (fun t => t.1)).Sorted (· ≤ ·)) := by
  have hnn : ∀ p ∈ [(⟨2, "B", .val 3, true⟩ : Participant), ⟨1, "A", .val 4, true⟩],
      0 ≤ dmg p := by
    intro p hp
    rcases List.mem_cons.mp hp with rfl | hp2
    · norm_num [dmg]
    · rcases List.mem_cons.mp hp2 with rfl | hp3
      · norm_num [dmg]
      · exact absurd hp3 (List.not_mem_nil p)
  have hrt : 0 < restrictedTotal ⟨2, "P", 7, false, 1⟩
      [⟨2, "B", .val 3, true⟩, ⟨1, "A", .val 4, true⟩] := by
    norm_num [restrictedTotal, restrictedOrdered, activeParticipants, sortById,
      List.insertionSort, List.orderedInsert, idLe, dmg, Damage.isExcluded]
  exact ⟨hnn, hrt, C8_length_eq_and_sorted _ _ true hnn hrt⟩

/-- C5: one over-assignment iteration decrements by 1 the entry that, among
entries with strictly positive current share, minimizes
`|(share - 1) - exact|`, ties going to the first entry in scan order; one
under-assignment iteration increments by 1 the entry minimizing
`|(share + 1) - exact|` with no upper-bound restriction on candidates; and
the scan order of the working list is descending damage. -/
theorem C5_correction_iterations (shares : List Share) :
    ((∃ s ∈ shares, 0 < s.cur) →
      ∃ j : ℕ, ∃ hj : j < shares.length,
        0 < (shares.get ⟨j, hj⟩).cur ∧
        decOnce shares = modifyCur (fun c => c - 1) shares j ∧
        (∀ (k : ℕ) (hk : k < shares.length), 0 < (shares.get ⟨k, hk⟩).cur →
          decLoss (shares.get ⟨j, hj⟩) ≤ decLoss (shares.get ⟨k, hk⟩)) ∧
        (∀ (k : ℕ) (hk : k < shares.length), k < j → 0 < (shares.get ⟨k, hk⟩).cur →
          decLoss (shares.get ⟨j, hj⟩) < decLoss (shares.get ⟨k, hk⟩))) ∧
    (shares ≠ [] →
      ∃ j : ℕ, ∃ hj : j < shares.length,
        incOnce shares = modifyCur (fun c => c + 1) shares j ∧
        (∀ (k : ℕ) (hk : k < shares.length),
          incLoss (shares.get ⟨j, hj⟩) ≤ incLoss (shares.get ⟨k, hk⟩)) ∧
        (∀ (k : ℕ) (hk : k < shares.length), k < j →
          incLoss (shares.get ⟨j, hj⟩) < incLoss (shares.get ⟨k, hk⟩))) ∧
    (∀ (ps : List Participant) (T q : ℚ),
      ((initialShares ps T q).map (fun s => s.p)).Sorted dmgGe) := by
  refine ⟨decOnce_spec shares, incOnce_spec shares, ?_⟩
  intro ps T q
  rw [map_p_initialShares]
  exact List.sorted_insertionSort dmgGe ps

/-- Witness for C5: a concrete two-entry working list; both correction
steps select an entry as characterized. -/
theorem C5_correction_iterations_witness :
    (∃ s ∈ [(⟨⟨1, "A", .val 2, true⟩, 2, 3/2⟩ : Share),
      ⟨⟨2, "B", .val 1, true⟩, 1, 1/2⟩], 0 < s.cur) ∧
    ([(⟨⟨1, "A", .val 2, true⟩, 2, 3/2⟩ : Share),
      ⟨⟨2, "B", .val 1, true⟩, 1, 1/2⟩] ≠ []) ∧
    (∃ j : ℕ, ∃ hj : j < ([(⟨⟨1, "A", .val 2, true⟩, 2, 3/2⟩ : Share),
        ⟨⟨2, "B", .val 1, true⟩, 1, 1/2⟩]).length,
      0 < (([(⟨⟨1, "A", .val 2, true⟩, 2, 3/2⟩ : Share),
        ⟨⟨2, "B", .val 1, true⟩, 1, 1/2⟩]).get ⟨j, hj⟩).cur ∧
      decOnce [(⟨⟨1, "A", .val 2, true⟩, 2, 3/2⟩ : Share),
          ⟨⟨2, "B", .val 1, true⟩, 1, 1/2⟩] =
        modifyCur (fun c => c - 1)
          [(⟨⟨1, "A", .val 2, true⟩, 2, 3/2⟩ : Share),
            ⟨⟨2, "B", .val 1, true⟩, 1, 1/2⟩] j ∧
      (∀ (k : ℕ) (hk : k < ([(⟨⟨1, "A", .val 2, true⟩, 2, 3/2⟩ : Share),
          ⟨⟨2, "B", .val 1, true⟩, 1, 1/2⟩]).length),
        0 < (([(⟨⟨1, "A", .val 2, true⟩, 2, 3/2⟩ : Share),
          ⟨⟨2, "B", .val 1, true⟩, 1, 1/2⟩]).get ⟨k, hk⟩).cur →
        decLoss (([(⟨⟨1, "A", .val 2, true⟩, 2, 3/2⟩ : Share),
          ⟨⟨2, "B", .val 1, true⟩, 1, 1/2⟩]).get ⟨j, hj⟩) ≤
        decLoss (([(⟨⟨1, "A", .val 2, true⟩, 2, 3/2⟩ : Share),
          ⟨⟨2, "B", .val 1, true⟩, 1, 1/2⟩]).get ⟨k, hk⟩)) ∧
      (∀ (k : ℕ) (hk : k < ([(⟨⟨1, "A", .val 2, true⟩, 2, 3/2⟩ : Share),
          ⟨⟨2, "B", .val 1, true⟩, 1, 1/2⟩]).length), k < j →
        0 < (([(⟨⟨1, "A", .val 2, true⟩, 2, 3/2⟩ : Share),
          ⟨⟨2, "B", .val 1, true⟩, 1, 1/2⟩]).get ⟨k, hk⟩).cur →
        decLoss (([(⟨⟨1, "A", .val 2, true⟩, 2, 3/2⟩ : Share),
          ⟨⟨2, "B", .val 1, true⟩, 1, 1/2⟩]).get ⟨j, hj⟩) <
        decLoss (([(⟨⟨1, "A", .val 2, true⟩, 2, 3/2⟩ : Share),
          ⟨⟨2, "B", .val 1, true⟩, 1, 1/2⟩]).get ⟨k, hk⟩))) :=
  ⟨⟨⟨⟨1, "A", .val 2, true⟩, 2, 3/2⟩, by simp, by norm_num⟩,
   by simp,
   (C5_correction_iterations _).1
     ⟨⟨⟨1, "A", .val 2, true⟩, 2, 3/2⟩, by simp, by norm_num⟩⟩

/-- C3 evaluated at a failing input: with two unit weights and quantity 1
both exact shares are exactly one half, and the source's initial rounding
(Python `round`, half-to-even) assigns 0 — not the next higher integer 1
that round-half-up semantics would give.  `pyRound` also sends 5/2 to 2,
against the round-half-up reading of the source's own comment. -/
theorem C3_initial_rounding_is_half_even :
    (initialShares [⟨1, "A", .val 1, true⟩, ⟨2, "B", .val 1, true⟩] 2 1).map
      (fun s => s.cur) = [0, 0] ∧
    pyRound (1/2 : ℚ) = 0 ∧ pyRound (5/2 : ℚ) = 2 := by
  refine ⟨?_, ?_, ?_⟩
  · norm_num [initialShares, sortByDamageDesc, List.insertionSort,
      List.orderedInsert, dmgGe, dmg, pyRound]
  · norm_num [pyRound]
  · norm_num [pyRound]
